import Mathlib

set_option maxRecDepth 8000

/-!
Verification development for the MIMIC clinical-notes preprocessing pipeline
(`tasks/mimic_utils.py`): note filtering and consolidation (`filter_notes`),
regex-based section extraction (`extract_sections`), admission-text reduction
(`filter_admission_text`), and the patient-wise splitter
(`save_mimic_split_patient_wise`).

Texts are embedded as `List Char`; tables as lists of records.  Pandas
operations are embedded as follows: boolean-mask filtering is `List.filter`
(row order preserved), `sort_values` is a stable sort on the key,
`drop_duplicates(keep="last")` keeps a row exactly when no later row has the
same key, `groupby` produces the sorted list of distinct keys, and an inner
merge on two unique-key tables walks the left table's key order.  The regex
`"<label>:\s*([\s\S]*?)(?:\n\n|\Z)"` with IGNORECASE, applied via `re.search`,
is embedded by: find the first case-insensitive occurrence of the label,
greedily drop the whitespace run after it, then lazily capture up to the next
two consecutive newlines or the end of the text.  Case folding is modelled on
ASCII letters, which covers every character of the fixed section labels.
-/

/-- ASCII-insensitive code of a character: the codepoint, with `A`..`Z`
mapped onto `a`..`z`.  Models `re.IGNORECASE` matching on the label
characters. -/
def lowerNat (c : Char) : Nat :=
  if 65 ≤ c.toNat && c.toNat ≤ 90 then c.toNat + 32 else c.toNat

/-- Python's `\s` on the ASCII range: space, tab, newline, carriage return,
vertical tab, form feed. -/
def pySpace (c : Char) : Bool :=
  c == ' ' || c == '\t' || c == '\n' || c == '\r' || c == '\x0b' || c == '\x0c'

/-- `ciStarts lbl t`: the text `t` begins with the label `lbl`, compared
case-insensitively. -/
def ciStarts : List Char → List Char → Bool
  | [], _ => true
  | _ :: _, [] => false
  | a :: l, b :: t => (lowerNat a == lowerNat b) && ciStarts l t

/-- `ciFind lbl t`: scan `t` left to right for the first case-insensitive
occurrence of `lbl`; return the text following that occurrence.  Models the
position at which `re.search` anchors the pattern `"<label>..."`. -/
def ciFind (lbl : List Char) : List Char → Option (List Char)
  | [] => if lbl.isEmpty then some [] else none
  | c :: rest =>
    if ciStarts lbl (c :: rest) then some (List.drop lbl.length (c :: rest))
    else ciFind lbl rest

/-- Lazy capture of `([\s\S]*?)(?:\n\n|\Z)`: take characters up to (not
including) the first two consecutive newlines, or the whole list if there is
no blank line. -/
def takeUntilBlank : List Char → List Char
  | [] => []
  | c :: rest =>
    if c == '\n' && rest.head? == some '\n' then []
    else c :: takeUntilBlank rest

/-- `noDoubleNL t`: `t` contains no two consecutive newline characters. -/
def noDoubleNL : List Char → Bool
  | [] => true
  | c :: rest => !(c == '\n' && rest.head? == some '\n') && noDoubleNL rest

/-- Python `str.strip()` on the ASCII range: drop leading and trailing
whitespace. -/
def stripChars (l : List Char) : List Char :=
  ((l.dropWhile pySpace).reverse.dropWhile pySpace).reverse

/-- One regex of `extract_sections`: find the label case-insensitively; if
absent the value is empty, otherwise greedily skip the whitespace after the
label (the `\s*`), lazily capture up to the next blank line or the end of the
text, and strip the capture. -/
def extractSection (lbl text : List Char) : List Char :=
  match ciFind lbl text with
  | none => []
  | some r => stripChars (takeUntilBlank (r.dropWhile pySpace))

def ccLabel : List Char := "chief complaint:".data
def piLabel : List Char := "present illness:".data
def mhLabel : List Char := "medical history:".data
def maLabel : List Char := "medications on admission:".data
def alLabel : List Char := "allergies:".data
def peLabel : List Char := "physical exam:".data
def fhLabel : List Char := "family history:".data
def shLabel : List Char := "social history:".data

/-- The eight fixed section labels, in the order of the `sections` dict of
`extract_sections`. -/
def labels8 : List (List Char) :=
  [ccLabel, piLabel, mhLabel, maLabel, alLabel, peLabel, fhLabel, shLabel]

/-- Result of `extract_sections`: one extracted value per fixed section
name. -/
structure Sections where
  CHIEF_COMPLAINT : List Char
  PRESENT_ILLNESS : List Char
  MEDICAL_HISTORY : List Char
  MEDICATION_ADM : List Char
  ALLERGIES : List Char
  PHYSICAL_EXAM : List Char
  FAMILY_HISTORY : List Char
  SOCIAL_HISTORY : List Char
deriving DecidableEq

/-- `extract_sections` of `mimic_utils.py`: run the eight per-section
regexes independently on the text. -/
def extract_sections (text : List Char) : Sections where
  CHIEF_COMPLAINT := extractSection ccLabel text
  PRESENT_ILLNESS := extractSection piLabel text
  MEDICAL_HISTORY := extractSection mhLabel text
  MEDICATION_ADM := extractSection maLabel text
  ALLERGIES := extractSection alLabel text
  PHYSICAL_EXAM := extractSection peLabel text
  FAMILY_HISTORY := extractSection fhLabel text
  SOCIAL_HISTORY := extractSection shLabel text

/-- The blank-line separator `"\n\n"` used between rebuilt sections. -/
def SEP : List Char := ['\n', '\n']

def hCC : List Char := "CHIEF COMPLAINT: ".data
def hPI : List Char := "PRESENT ILLNESS: ".data
def hMH : List Char := "MEDICAL HISTORY: ".data
def hMA : List Char := "MEDICATION ON ADMISSION: ".data
def hAL : List Char := "ALLERGIES: ".data
def hPE : List Char := "PHYSICAL EXAM: ".data
def hFH : List Char := "FAMILY HISTORY: ".data
def hSH : List Char := "SOCIAL HISTORY: ".data

/-- The rebuilt `TEXT` of `filter_admission_text`: the eight sections in the
fixed order, each after its uppercase header (note that the rebuild header of
`MEDICATION_ADM` is the singular `"MEDICATION ON ADMISSION: "` while the
extraction label is the plural `"medications on admission:"`), separated by
blank lines. -/
def rebuildText (s : Sections) : List Char :=
  hCC ++ (s.CHIEF_COMPLAINT ++ (SEP ++
  (hPI ++ (s.PRESENT_ILLNESS ++ (SEP ++
  (hMH ++ (s.MEDICAL_HISTORY ++ (SEP ++
  (hMA ++ (s.MEDICATION_ADM ++ (SEP ++
  (hAL ++ (s.ALLERGIES ++ (SEP ++
  (hPE ++ (s.PHYSICAL_EXAM ++ (SEP ++
  (hFH ++ (s.FAMILY_HISTORY ++ (SEP ++
  (hSH ++ s.SOCIAL_HISTORY)))))))))))))))))))))

/-- The row-keeping test of `filter_admission_text`: at least one of
chief complaint, present illness, medical history was extracted. -/
def keepAdmissionNote (s : Sections) : Bool :=
  !s.CHIEF_COMPLAINT.isEmpty || !s.PRESENT_ILLNESS.isEmpty ||
    !s.MEDICAL_HISTORY.isEmpty

/-- A raw row of `NOTEEVENTS`: `TEXT` and `HADM_ID` are nullable and such
rows are dropped early.  `CHARTDATE` is the chart date in an order-isomorphic
integer encoding. -/
structure NoteRow where
  ROW_ID : Nat
  SUBJECT_ID : Nat
  HADM_ID : Option Nat
  CHARTDATE : Nat
  CATEGORY : List Char
  DESCRIPTION : List Char
  TEXT : Option (List Char)
deriving DecidableEq

/-- A raw row of `ADMISSIONS`: the admission type is nullable (pandas `NaN`),
and `NaN != "NEWBORN"` evaluates to true just as `none ≠ some _`. -/
structure AdmissionRow where
  HADM_ID : Nat
  ADMISSION_TYPE : Option (List Char)
deriving DecidableEq

/-- A note row after the early `dropna(subset=["TEXT", "HADM_ID"])`: both
fields are known to be present. -/
structure CNote where
  ROW_ID : Nat
  SUBJECT_ID : Nat
  HADM_ID : Nat
  CHARTDATE : Nat
  CATEGORY : List Char
  DESCRIPTION : List Char
  TEXT : List Char
deriving DecidableEq

/-- A consolidated note produced by the merge of the combined-text table with
the representative-row table. -/
structure ConsNote where
  HADM_ID : Nat
  ROW_ID : Nat
  SUBJECT_ID : Nat
  CHARTDATE : Nat
  TEXT : List Char
deriving DecidableEq

/-- Stable insert for `sortByKey`: `x` goes in front of the first element
whose key is not smaller, so earlier rows stay in front of later rows with an
equal key. -/
def insKey (k : α → Nat) (x : α) : List α → List α
  | [] => [x]
  | y :: ys => if k y < k x then y :: insKey k x ys else x :: y :: ys

/-- Stable sort by an integer key.  Embeds pandas `sort_values` (ties keep
the incoming row order). -/
def sortByKey (k : α → Nat) : List α → List α
  | [] => []
  | a :: l => insKey k a (sortByKey k l)

/-- `drop_duplicates(subset=[key], keep="last")`: a row survives exactly
when no later row carries the same key. -/
def dedupLastBy [DecidableEq β] (f : α → β) : List α → List α
  | [] => []
  | x :: xs =>
    if xs.any (fun y => f y == f x) then dedupLastBy f xs
    else x :: dedupLastBy f xs

/-- `drop_duplicates(subset=["TEXT"], keep="last")`. -/
def dedupTexts (l : List CNote) : List CNote :=
  dedupLastBy (fun c => c.TEXT) l

/-- `drop_duplicates(subset=["HADM_ID"], keep="last")` on the representative
rows. -/
def dedupHadm (l : List CNote) : List CNote :=
  dedupLastBy (fun c => c.HADM_ID) l

def NEWBORN : List Char := "NEWBORN".data

/-- `admissions_df[admissions_df.ADMISSION_TYPE != "NEWBORN"]`; a missing
(`NaN`) admission type is not equal to `"NEWBORN"`, so such rows are kept. -/
def admGrownups (adms : List AdmissionRow) : List AdmissionRow :=
  adms.filter (fun a => !(a.ADMISSION_TYPE == some NEWBORN))

/-- `notes_df[notes_df.HADM_ID.isin(adm_grownups.HADM_ID)]`; a missing
`HADM_ID` is in no set, so such rows are dropped here already. -/
def notesNonNewborn (notes : List NoteRow) (adms : List AdmissionRow) :
    List NoteRow :=
  notes.filter (fun n =>
    match n.HADM_ID with
    | some h => (admGrownups adms).any (fun a => a.HADM_ID == h)
    | none => false)

/-- `dropna(subset=["TEXT", "HADM_ID"])`, narrowing to rows where both are
present. -/
def toCNote (n : NoteRow) : Option CNote :=
  match n.HADM_ID, n.TEXT with
  | some h, some t =>
    some ⟨n.ROW_ID, n.SUBJECT_ID, h, n.CHARTDATE, n.CATEGORY, n.DESCRIPTION, t⟩
  | _, _ => none

/-- The note rows surviving the newborn filter, the dropna, and the
`CATEGORY == "Discharge summary"` filter. -/
def survivingNotes (notes : List NoteRow) (adms : List AdmissionRow) :
    List CNote :=
  ((notesNonNewborn notes adms).filterMap toCNote).filter
    (fun c => c.CATEGORY == "Discharge summary".data)

/-- `sort_values(by=["CHARTDATE"])` on the surviving rows. -/
def sortedNotes (notes : List NoteRow) (adms : List AdmissionRow) :
    List CNote :=
  sortByKey (fun c => c.CHARTDATE) (survivingNotes notes adms)

/-- The sorted rows after duplicate-text removal. -/
def dedupedNotes (notes : List NoteRow) (adms : List AdmissionRow) :
    List CNote :=
  dedupTexts (sortedNotes notes adms)

/-- The distinct admission ids of the deduplicated rows, in ascending order:
the group keys of `groupby('HADM_ID')`. -/
def admissionKeys (notes : List NoteRow) (adms : List AdmissionRow) :
    List Nat :=
  (sortByKey id ((dedupedNotes notes adms).map (fun c => c.HADM_ID))).dedup

/-- `groupby('HADM_ID')['TEXT'].apply(lambda x: '\n\n'.join(x))`: for each
admission id, the texts of its rows (in the deduplicated, date-sorted order)
joined by a blank line. -/
def combinedTexts (notes : List NoteRow) (adms : List AdmissionRow) :
    List (Nat × List Char) :=
  (admissionKeys notes adms).map (fun h =>
    (h, List.intercalate SEP
      (((dedupedNotes notes adms).filter (fun c => c.HADM_ID == h)).map
        (fun c => c.TEXT))))

/-- The representative rows: `DESCRIPTION == "Report"`, one per admission id,
keeping the chronologically last. -/
def reportRows (notes : List NoteRow) (adms : List AdmissionRow) :
    List CNote :=
  dedupHadm ((dedupedNotes notes adms).filter
    (fun c => c.DESCRIPTION == "Report".data))

/-- `pd.merge(combined_adm_texts, notes_df, on="HADM_ID", how="inner")`
followed by `str.strip()` of the text: both key columns are unique, so the
merge walks the combined-text table and keeps exactly the admissions that
also have a representative row. -/
def mergedNotes (notes : List NoteRow) (adms : List AdmissionRow) :
    List ConsNote :=
  (combinedTexts notes adms).filterMap (fun p =>
    ((reportRows notes adms).find? (fun c => c.HADM_ID == p.1)).map
      (fun rep => ⟨p.1, rep.ROW_ID, rep.SUBJECT_ID, rep.CHARTDATE,
        stripChars p.2⟩))

/-- `filter_admission_text` of `mimic_utils.py`: keep the rows whose
extracted sections have a chief complaint, present illness or medical
history, and rebuild their text from the extracted sections. -/
def filter_admission_text (l : List ConsNote) : List ConsNote :=
  (l.filter (fun r => keepAdmissionNote (extract_sections r.TEXT))).map
    (fun r => { r with TEXT := rebuildText (extract_sections r.TEXT) })

/-- `filter_notes` of `mimic_utils.py`.  The final
`dropna(subset=["HADM_ID", "SUBJECT_ID", "TEXT"])` is the identity here:
after the merge all three columns are total (an empty string is not `NaN`). -/
def filter_notes (notes : List NoteRow) (adms : List AdmissionRow)
    (admission_text_only : Bool) : List ConsNote :=
  if admission_text_only then filter_admission_text (mergedNotes notes adms)
  else mergedNotes notes adms

/-- A row of the corpus handed to `save_mimic_split_patient_wise`: the
consolidated fields plus the task's label column. -/
structure TaskRow where
  HADM_ID : Nat
  SUBJECT_ID : Nat
  TEXT : List Char
  LABEL : List Char
deriving DecidableEq

/-- The three split names. -/
inductive SplitName
  | train
  | val
  | test
deriving DecidableEq, Fintype

/-- The three external patient-to-split reference mappings, each a list of
`SUBJECT_ID`s (from `tasks/mimic_train.csv` and friends). -/
structure SplitRefs where
  train : List Nat
  val : List Nat
  test : List Nat

def refIds (refs : SplitRefs) : SplitName → List Nat
  | .train => refs.train
  | .val => refs.val
  | .test => refs.test

/-- Modelled from the spec: the row shuffle
`sample(frac=1, random_state=seed)` — library code outside this repository —
is specified only as a deterministic, seed-dependent permutation of the rows,
so it is modelled as a rotation by the seed. -/
def shuffleRows (seed : Nat) (l : List TaskRow) : List TaskRow :=
  l.rotate seed

/-- The rows selected and shuffled for one split:
`df[df.SUBJECT_ID.isin(data_split[split_name].SUBJECT_ID)].sample(frac=1,
random_state=seed)`. -/
def splitRowsFor (refs : SplitRefs) (seed : Nat) (df : List TaskRow)
    (name : SplitName) : List TaskRow :=
  shuffleRows seed (df.filter (fun r => (refIds refs name).contains r.SUBJECT_ID))

/-- An output row after the `[column_list]` projection with the default
columns `["ID", "TEXT", label]` (lower-cased): the admission id renamed to
`ID`, the text, and the label. -/
structure OutRow where
  id : Nat
  text : List Char
  label : List Char
deriving DecidableEq

/-- One written split table of `save_mimic_split_patient_wise` (the rows of
`"{task_name}_{split}.csv"`, in order). -/
def splitTableFor (refs : SplitRefs) (seed : Nat) (df : List TaskRow)
    (name : SplitName) : List OutRow :=
  (splitRowsFor refs seed df name).map (fun r => ⟨r.HADM_ID, r.TEXT, r.LABEL⟩)

/-! Concrete data used by the witness theorems. -/

def dsCat : List Char := "Discharge summary".data

def reportDesc : List Char := "Report".data

def wAdm1 : AdmissionRow := ⟨1, some "EMERGENCY".data⟩

def wAdmNewborn : AdmissionRow := ⟨2, some NEWBORN⟩

def wAdmNoType : AdmissionRow := ⟨3, none⟩

def wNote1 : NoteRow := ⟨11, 100, some 1, 1, dsCat, reportDesc, some "A".data⟩

def wNote2 : NoteRow := ⟨12, 100, some 1, 3, dsCat, "Addendum".data, some "B".data⟩

def wNote3 : NoteRow := ⟨13, 200, some 2, 1, dsCat, reportDesc, some "C".data⟩

def wNote4 : NoteRow := ⟨14, 300, some 3, 1, dsCat, reportDesc, some "D".data⟩

def wNotes : List NoteRow := [wNote1, wNote2, wNote3, wNote4]

def wAdms : List AdmissionRow := [wAdm1, wAdmNewborn, wAdmNoType]

def wDup1 : NoteRow := ⟨21, 100, some 5, 3, dsCat, reportDesc, some "X".data⟩

def wDup2 : NoteRow := ⟨22, 100, some 5, 7, dsCat, "Addendum".data, some "X".data⟩

def wTask1 : TaskRow := ⟨1, 100, "T1".data, "L1".data⟩

def wTask2 : TaskRow := ⟨2, 200, "T2".data, "L2".data⟩

def wRefs : SplitRefs := ⟨[100], [200], []⟩

def wAdm5 : AdmissionRow := ⟨5, some "EMERGENCY".data⟩

def wDups : List NoteRow := [wDup1, wDup2]

def wConsRow1 : ConsNote := ⟨1, 11, 100, 1, "A\n\nB".data⟩

def wCons : ConsNote :=
  ⟨1, 11, 100, 1, "Chief Complaint: Chest pain\n\nOther: x".data⟩

def wConsOut : ConsNote :=
  ⟨1, 11, 100, 1,
    ("CHIEF COMPLAINT: Chest pain\n\nPRESENT ILLNESS: \n\nMEDICAL HISTORY: " ++
     "\n\nMEDICATION ON ADMISSION: \n\nALLERGIES: \n\nPHYSICAL EXAM: " ++
     "\n\nFAMILY HISTORY: \n\nSOCIAL HISTORY: ").data⟩

/-- Modelled from the spec's words for the capture rule of the section
extractor: the value is "the content between the label and the next blank
line (two consecutive newlines) or end of text, trimmed of surrounding
whitespace" — i.e. without the regex's greedy `\s*` skip after the colon.
Kept for comparison with `extractSection`, the embedding of the code. -/
def claimedSectionValue (lbl text : List Char) : List Char :=
  match ciFind lbl text with
  | none => []
  | some r => stripChars (takeUntilBlank r)

/-- Pointwise ASCII-case-insensitive equality of two character lists. -/
def ciEq (s t : List Char) : Prop := s.map lowerNat = t.map lowerNat

/-- The label contains no newline character (true of all eight section
labels); a label occurrence can therefore never cross a blank-line
separator. -/
def noNlChar (l : List Char) : Bool := l.all (fun c => !(c == '\n'))

/-- No non-empty suffix of `h` is a case-insensitive prefix of `lbl`: a label
occurrence can neither lie inside `h` nor start inside `h` and continue past
its end.  Checked by computation for each label/header pair. -/
def noStraddle (lbl h : List Char) : Bool :=
  h.tails.all (fun s => s.isEmpty || !ciStarts s lbl)

/-- A well-behaved section value: non-empty, already trimmed, no blank line
inside, and no case-insensitive occurrence of any of the eight section
labels.  This formalises a section value "without ambiguous nested labels"
for the round-trip claim. -/
def goodVal (v : List Char) : Prop :=
  v ≠ [] ∧ stripChars v = v ∧ noDoubleNL v = true ∧
    ∀ lbl ∈ labels8, ciFind lbl v = none

instance goodValDecidable (v : List Char) : Decidable (goodVal v) := by
  unfold goodVal
  infer_instance

/-- A section set with all eight values non-empty and well-behaved, used to
exhibit the failure of the extract/rebuild round trip on the
`MEDICATION_ADM` section. -/
def sCounter : Sections :=
  ⟨"A".data, "B".data, "C".data, "D".data,
   "E".data, "F".data, "G".data, "H".data⟩

/-- Like `sCounter` but with an empty `MEDICATION_ADM`, for which the round
trip does hold. -/
def sGood : Sections :=
  ⟨"A".data, "B".data, "C".data, [],
   "E".data, "F".data, "G".data, "H".data⟩

/-! Splitter lemmas and claims. -/

theorem splitRowsFor_mem (refs : SplitRefs) (seed : Nat) (df : List TaskRow)
    (name : SplitName) (r : TaskRow) :
    r ∈ splitRowsFor refs seed df name ↔
      r ∈ df ∧ r.SUBJECT_ID ∈ refIds refs name := by
  simp [splitRowsFor, shuffleRows, List.mem_rotate, List.mem_filter]

/-- C1.  For pairwise-disjoint train/val/test reference mappings, the three
tables produced by the splitter are pairwise disjoint, each patient's rows
(keyed by `SUBJECT_ID`) appear in at most one of the three outputs, and a row
of the corpus is included in a split's output exactly when its `SUBJECT_ID`
appears in that split's reference mapping. -/
theorem splitter_patientwise_partition (refs : SplitRefs) (seed : Nat)
    (df : List TaskRow)
    (hdisj : ∀ n1 n2 : SplitName, n1 ≠ n2 →
      ∀ s, s ∈ refIds refs n1 → s ∉ refIds refs n2) :
    (∀ (name : SplitName) (r : TaskRow),
      r ∈ splitRowsFor refs seed df name ↔
        r ∈ df ∧ r.SUBJECT_ID ∈ refIds refs name) ∧
    (∀ n1 n2 : SplitName, n1 ≠ n2 → ∀ r : TaskRow,
      r ∈ splitRowsFor refs seed df n1 → r ∉ splitRowsFor refs seed df n2) ∧
    (∀ n1 n2 : SplitName, n1 ≠ n2 → ∀ r1 r2 : TaskRow,
      r1 ∈ splitRowsFor refs seed df n1 → r2 ∈ splitRowsFor refs seed df n2 →
        r1.SUBJECT_ID ≠ r2.SUBJECT_ID) := by
  refine ⟨splitRowsFor_mem refs seed df, ?_, ?_⟩
  · intro n1 n2 hne r h1 h2
    rw [splitRowsFor_mem] at h1 h2
    exact hdisj n1 n2 hne r.SUBJECT_ID h1.2 h2.2
  · intro n1 n2 hne r1 r2 h1 h2 hs
    rw [splitRowsFor_mem] at h1 h2
    exact hdisj n1 n2 hne r1.SUBJECT_ID h1.2 (hs ▸ h2.2)

/-- Witness for C1 at a concrete corpus and disjoint reference mappings. -/
theorem splitter_patientwise_partition_witness :
    (wTask1 ∈ splitRowsFor wRefs 123 [wTask1, wTask2] .train ↔
      wTask1 ∈ [wTask1, wTask2] ∧ wTask1.SUBJECT_ID ∈ refIds wRefs .train) ∧
    (wTask1 ∈ splitRowsFor wRefs 123 [wTask1, wTask2] .train →
      wTask1 ∉ splitRowsFor wRefs 123 [wTask1, wTask2] .val) := by
  have h := splitter_patientwise_partition wRefs 123 [wTask1, wTask2]
    (by decide)
  exact ⟨h.1 .train wTask1, h.2.1 .train .val (by decide) wTask1⟩

/-- C9.  The splitter is a pure function of seed and input, so the same seed
on the same input reproduces the same table; a different seed permutes the
rows of each split but never changes which rows belong to it. -/
theorem splitter_seed_reproducibility (refs : SplitRefs) (df : List TaskRow)
    (name : SplitName) (s1 s2 : Nat) :
    (s1 = s2 →
      splitTableFor refs s1 df name = splitTableFor refs s2 df name) ∧
    (splitRowsFor refs s1 df name).Perm (splitRowsFor refs s2 df name) ∧
    (splitTableFor refs s1 df name).Perm (splitTableFor refs s2 df name) ∧
    (∀ r, r ∈ splitRowsFor refs s1 df name ↔
      r ∈ splitRowsFor refs s2 df name) := by
  have hperm : (splitRowsFor refs s1 df name).Perm
      (splitRowsFor refs s2 df name) :=
    (List.rotate_perm _ s1).trans (List.rotate_perm _ s2).symm
  exact ⟨fun h => by rw [h], hperm, hperm.map _, fun r => hperm.mem_iff⟩

/-- Witness for C9 at a concrete corpus and two different seeds. -/
theorem splitter_seed_reproducibility_witness :
    (splitTableFor wRefs 123 [wTask1, wTask2] .train =
      splitTableFor wRefs 123 [wTask1, wTask2] .train) ∧
    (splitRowsFor wRefs 123 [wTask1, wTask2] .train).Perm
      (splitRowsFor wRefs 7 [wTask1, wTask2] .train) := by
  exact ⟨(splitter_seed_reproducibility wRefs [wTask1, wTask2] .train
      123 123).1 rfl,
    (splitter_seed_reproducibility wRefs [wTask1, wTask2] .train 123 7).2.1⟩

/-- C10.  An admission row whose `ADMISSION_TYPE` is missing (`NaN`) is kept
by the grown-up filter, and a note referring to it passes the newborn filter:
only the exact value `"NEWBORN"` is excluded. -/
theorem missing_admission_type_not_newborn (notes : List NoteRow)
    (adms : List AdmissionRow) (n : NoteRow) (a : AdmissionRow) (h : Nat)
    (hn : n.HADM_ID = some h) (ha : a ∈ adms) (hah : a.HADM_ID = h)
    (hat : a.ADMISSION_TYPE = none) :
    a ∈ admGrownups adms ∧
      (n ∈ notesNonNewborn notes adms ↔ n ∈ notes) := by
  have hg : a ∈ admGrownups adms := by
    simp [admGrownups, List.mem_filter, ha, hat]
  refine ⟨hg, ?_⟩
  constructor
  · intro hmem
    exact (List.mem_filter.mp hmem).1
  · intro hmem
    refine List.mem_filter.mpr ⟨hmem, ?_⟩
    simp only [hn]
    simp only [List.any_eq_true]
    exact ⟨a, hg, by simp [hah]⟩

/-- Witness for C10: a note for admission 3, whose admission row has no
type, passes the newborn filter. -/
theorem missing_admission_type_not_newborn_witness :
    wAdmNoType ∈ admGrownups wAdms ∧
      (wNote4 ∈ notesNonNewborn wNotes wAdms ↔ wNote4 ∈ wNotes) := by
  exact missing_admission_type_not_newborn wNotes wAdms wNote4 wAdmNoType 3
    rfl (by decide) rfl rfl

/-! Admission-text reducer claim. -/

/-- C6.  A consolidated record survives `filter_admission_text` exactly when
at least one of chief complaint, present illness, medical history extracts
non-empty, and a surviving record's text is replaced by the eight sections in
the fixed order, each after an uppercase header and colon, separated by blank
lines, with missing sections rendered as an empty string after their
header. -/
theorem filter_admission_text_keep_and_rebuild (l : List ConsNote)
    (r' : ConsNote) :
    r' ∈ filter_admission_text l ↔
      ∃ r, r ∈ l ∧
        ((extract_sections r.TEXT).CHIEF_COMPLAINT ≠ [] ∨
          (extract_sections r.TEXT).PRESENT_ILLNESS ≠ [] ∨
          (extract_sections r.TEXT).MEDICAL_HISTORY ≠ []) ∧
        r' = ⟨r.HADM_ID, r.ROW_ID, r.SUBJECT_ID, r.CHARTDATE,
          "CHIEF COMPLAINT: ".data ++
            (extract_sections r.TEXT).CHIEF_COMPLAINT ++ "\n\n".data ++
          "PRESENT ILLNESS: ".data ++
            (extract_sections r.TEXT).PRESENT_ILLNESS ++ "\n\n".data ++
          "MEDICAL HISTORY: ".data ++
            (extract_sections r.TEXT).MEDICAL_HISTORY ++ "\n\n".data ++
          "MEDICATION ON ADMISSION: ".data ++
            (extract_sections r.TEXT).MEDICATION_ADM ++ "\n\n".data ++
          "ALLERGIES: ".data ++
            (extract_sections r.TEXT).ALLERGIES ++ "\n\n".data ++
          "PHYSICAL EXAM: ".data ++
            (extract_sections r.TEXT).PHYSICAL_EXAM ++ "\n\n".data ++
          "FAMILY HISTORY: ".data ++
            (extract_sections r.TEXT).FAMILY_HISTORY ++ "\n\n".data ++
          "SOCIAL HISTORY: ".data ++
            (extract_sections r.TEXT).SOCIAL_HISTORY⟩ := by
  simp only [filter_admission_text, List.mem_map, List.mem_filter]
  constructor
  · rintro ⟨r, ⟨hr, hkeep⟩, rfl⟩
    refine ⟨r, hr, ?_, ?_⟩
    · simpa [keepAdmissionNote, List.isEmpty_iff, or_assoc] using hkeep
    · simp [rebuildText, hCC, hPI, hMH, hMA, hAL, hPE, hFH, hSH, SEP,
        List.append_assoc]
  · rintro ⟨r, hr, hkeep, rfl⟩
    refine ⟨r, ⟨hr, ?_⟩, ?_⟩
    · simpa [keepAdmissionNote, List.isEmpty_iff, or_assoc] using hkeep
    · simp [rebuildText, hCC, hPI, hMH, hMA, hAL, hPE, hFH, hSH, SEP,
        List.append_assoc]

/-- Witness for C6: a note with only a chief complaint is kept, and its
rebuilt text lists all eight headers, the seven missing sections rendered
empty. -/
theorem filter_admission_text_keep_and_rebuild_witness :
    wConsOut ∈ filter_admission_text [wCons] := by
  exact (filter_admission_text_keep_and_rebuild [wCons] wConsOut).mpr
    ⟨wCons, by decide, by decide, by decide⟩

/-! Stable sort and keep-last deduplication lemmas. -/

theorem insKey_perm {α : Type} (k : α → Nat) (x : α) (l : List α) :
    (insKey k x l).Perm (x :: l) := by
  induction l with
  | nil => exact List.Perm.refl _
  | cons y ys ih =>
    rw [insKey]
    split
    · exact (List.Perm.cons y ih).trans (List.Perm.swap x y ys)
    · exact List.Perm.refl _

theorem sortByKey_perm {α : Type} (k : α → Nat) (l : List α) :
    (sortByKey k l).Perm l := by
  induction l with
  | nil => exact List.Perm.refl _
  | cons a l ih =>
    exact (insKey_perm k a (sortByKey k l)).trans (List.Perm.cons a ih)

theorem mem_insKey {α : Type} {k : α → Nat} {x a : α} {l : List α} :
    a ∈ insKey k x l ↔ a = x ∨ a ∈ l := by
  rw [(insKey_perm k x l).mem_iff, List.mem_cons]

theorem pairwise_insKey {α : Type} {k : α → Nat} {x : α} {l : List α}
    (h : List.Pairwise (fun a b => k a ≤ k b) l) :
    List.Pairwise (fun a b => k a ≤ k b) (insKey k x l) := by
  induction l with
  | nil => simp [insKey]
  | cons y ys ih =>
    rw [List.pairwise_cons] at h
    rw [insKey]
    split
    · rename_i hlt
      rw [List.pairwise_cons]
      refine ⟨?_, ih h.2⟩
      intro a ha
      rcases mem_insKey.mp ha with rfl | ha
      · exact Nat.le_of_lt hlt
      · exact h.1 a ha
    · rename_i hge
      rw [List.pairwise_cons]
      refine ⟨?_, List.pairwise_cons.mpr h⟩
      intro a ha
      rcases List.mem_cons.mp ha with rfl | ha
      · exact Nat.le_of_not_lt hge
      · exact Nat.le_trans (Nat.le_of_not_lt hge) (h.1 a ha)

theorem sortByKey_sorted {α : Type} (k : α → Nat) (l : List α) :
    List.Pairwise (fun a b => k a ≤ k b) (sortByKey k l) := by
  induction l with
  | nil => simp [sortByKey]
  | cons a l ih => exact pairwise_insKey ih

theorem dedupLastBy_sublist {α β : Type} [DecidableEq β] (f : α → β)
    (l : List α) : (dedupLastBy f l).Sublist l := by
  induction l with
  | nil => exact List.Sublist.refl _
  | cons x xs ih =>
    rw [dedupLastBy]
    split
    · exact ih.cons x
    · exact ih.cons₂ x

theorem dedupLastBy_map_nodup {α β : Type} [DecidableEq β] (f : α → β)
    (l : List α) : ((dedupLastBy f l).map f).Nodup := by
  induction l with
  | nil => simp [dedupLastBy]
  | cons x xs ih =>
    rw [dedupLastBy]
    split
    · exact ih
    · rename_i hnone
      rw [List.map_cons, List.nodup_cons]
      refine ⟨?_, ih⟩
      intro hmem
      rcases List.mem_map.mp hmem with ⟨y, hy, hfy⟩
      have hy' : y ∈ xs := ((dedupLastBy_sublist f xs).subset hy)
      exact hnone (List.any_eq_true.mpr ⟨y, hy', by simp [hfy]⟩)

theorem exists_dedupLastBy {α β : Type} [DecidableEq β] {f : α → β}
    {l : List α} : ∀ a ∈ l, ∃ b ∈ dedupLastBy f l, f b = f a := by
  induction l with
  | nil => intro a h; cases h
  | cons x xs ih =>
    intro a h
    rw [dedupLastBy]
    rcases List.mem_cons.mp h with rfl | hmem
    · split
      · rename_i hany
        rcases List.any_eq_true.mp hany with ⟨y, hy, hfy⟩
        rcases ih y hy with ⟨b, hb, hfb⟩
        exact ⟨b, hb, hfb.trans (by simpa using hfy)⟩
      · exact ⟨a, List.mem_cons_self _ _, rfl⟩
    · rcases ih a hmem with ⟨b, hb, hfb⟩
      split
      · exact ⟨b, hb, hfb⟩
      · exact ⟨b, List.mem_cons_of_mem _ hb, hfb⟩

theorem dedupLastBy_latest {α β : Type} [DecidableEq β] {f : α → β}
    {k : α → Nat} {l : List α}
    (hs : List.Pairwise (fun a b => k a ≤ k b) l)
    {b : α} (hb : b ∈ dedupLastBy f l) {a : α} (ha : a ∈ l)
    (hfa : f a = f b) : k a ≤ k b := by
  induction l with
  | nil => cases ha
  | cons x xs ih =>
    rw [List.pairwise_cons] at hs
    rw [dedupLastBy] at hb
    rcases List.mem_cons.mp ha with rfl | ha'
    · revert hb
      split
      · intro hb
        exact hs.1 b ((dedupLastBy_sublist f xs).subset hb)
      · intro hb
        rcases List.mem_cons.mp hb with rfl | hb'
        · exact Nat.le_refl _
        · exact hs.1 b ((dedupLastBy_sublist f xs).subset hb')
    · revert hb
      split
      · intro hb
        exact ih hs.2 hb ha'
      · rename_i hnone
        intro hb
        rcases List.mem_cons.mp hb with rfl | hb'
        · exact absurd (List.any_eq_true.mpr ⟨a, ha', by simp [hfa]⟩) hnone
        · exact ih hs.2 hb' ha'

/-! Traceability of consolidated rows back to the raw inputs. -/

theorem mem_survivingNotes {notes : List NoteRow} {adms : List AdmissionRow}
    {c : CNote} (hc : c ∈ survivingNotes notes adms) :
    (∃ n ∈ notes, n.HADM_ID = some c.HADM_ID ∧ n.TEXT = some c.TEXT ∧
      n.DESCRIPTION = c.DESCRIPTION ∧ n.CATEGORY = c.CATEGORY) ∧
    c.CATEGORY = "Discharge summary".data ∧
    (∃ a ∈ adms, a.HADM_ID = c.HADM_ID ∧ a.ADMISSION_TYPE ≠ some NEWBORN) := by
  obtain ⟨hc1, hcat⟩ := List.mem_filter.mp hc
  obtain ⟨n, hn1, hn2⟩ := List.mem_filterMap.mp hc1
  obtain ⟨hn3, hpred⟩ := List.mem_filter.mp hn1
  have hcat' : c.CATEGORY = "Discharge summary".data := by simpa using hcat
  rcases hh : n.HADM_ID with _ | h
  · rw [toCNote, hh] at hn2
    rcases ht : n.TEXT with _ | t <;> rw [ht] at hn2 <;> cases hn2
  rcases ht : n.TEXT with _ | t
  · rw [toCNote, hh, ht] at hn2; cases hn2
  rw [toCNote, hh, ht] at hn2
  obtain rfl := Option.some_inj.mp hn2
  rw [hh] at hpred
  simp only [List.any_eq_true] at hpred
  obtain ⟨a, hag, hab⟩ := hpred
  obtain ⟨ha, hat⟩ := List.mem_filter.mp hag
  refine ⟨⟨n, hn3, by simp [hh], by simp [ht], rfl, rfl⟩, hcat', a, ha, ?_, ?_⟩
  · simpa using hab
  · simpa using hat

theorem mem_dedupedNotes {notes : List NoteRow} {adms : List AdmissionRow}
    {c : CNote} (h : c ∈ dedupedNotes notes adms) :
    c ∈ survivingNotes notes adms :=
  (sortByKey_perm _ _).mem_iff.mp
    ((dedupLastBy_sublist (fun c : CNote => c.TEXT) _).subset h)

theorem mergedNotes_trace {notes : List NoteRow} {adms : List AdmissionRow}
    {r : ConsNote} (hr : r ∈ mergedNotes notes adms) :
    (∃ a ∈ adms, a.HADM_ID = r.HADM_ID ∧ a.ADMISSION_TYPE ≠ some NEWBORN) ∧
    (∃ n ∈ notes, n.HADM_ID = some r.HADM_ID ∧
      n.DESCRIPTION = "Report".data ∧
      n.CATEGORY = "Discharge summary".data) := by
  obtain ⟨p, hp, hg⟩ := List.mem_filterMap.mp hr
  rcases hfind : (reportRows notes adms).find? (fun c => c.HADM_ID == p.1)
    with _ | rep
  · rw [hfind] at hg; cases hg
  rw [hfind] at hg
  obtain rfl := Option.some_inj.mp ((Option.map_some' _ _) ▸ hg)
  have hrepmem : rep ∈ reportRows notes adms := List.mem_of_find?_eq_some hfind
  have hrephadm : rep.HADM_ID = p.1 := by simpa using List.find?_some hfind
  have h1 : rep ∈ (dedupedNotes notes adms).filter
      (fun c => c.DESCRIPTION == "Report".data) :=
    (dedupLastBy_sublist (fun c : CNote => c.HADM_ID) _).subset hrepmem
  obtain ⟨h2, h3⟩ := List.mem_filter.mp h1
  have h3' : rep.DESCRIPTION = "Report".data := by simpa using h3
  obtain ⟨⟨n, hn, hnh, _, hnd, hnc⟩, hcat, ⟨a, ha, hah, hat⟩⟩ :=
    mem_survivingNotes (mem_dedupedNotes h2)
  refine ⟨⟨a, ha, by simpa [hrephadm] using hah, hat⟩,
    n, hn, by simpa [hrephadm] using hnh, by rw [hnd, h3'], by rw [hnc, hcat]⟩

theorem filter_notes_hadm {notes : List NoteRow} {adms : List AdmissionRow}
    {flag : Bool} {r : ConsNote} (hr : r ∈ filter_notes notes adms flag) :
    ∃ r0 ∈ mergedNotes notes adms, r0.HADM_ID = r.HADM_ID := by
  cases flag with
  | false => exact ⟨r, by simpa [filter_notes] using hr, rfl⟩
  | true =>
    simp only [filter_notes, if_true, filter_admission_text] at hr
    obtain ⟨r0, hr0, rfl⟩ := List.mem_map.mp hr
    exact ⟨r0, (List.mem_filter.mp hr0).1, rfl⟩

theorem filter_notes_hadm_map_sublist (notes : List NoteRow)
    (adms : List AdmissionRow) (flag : Bool) :
    ((filter_notes notes adms flag).map (fun r => r.HADM_ID)).Sublist
      ((mergedNotes notes adms).map (fun r => r.HADM_ID)) := by
  cases flag with
  | false => simp [filter_notes]
  | true =>
    simp only [filter_notes, if_true, filter_admission_text, List.map_map]
    exact List.Sublist.map _ (List.filter_sublist _)

theorem filterMap_hadm_sublist (g : Nat × List Char → Option ConsNote)
    (hg : ∀ p r, g p = some r → r.HADM_ID = p.1) :
    ∀ l : List (Nat × List Char),
      ((l.filterMap g).map (fun r => r.HADM_ID)).Sublist (l.map Prod.fst)
  | [] => List.Sublist.refl _
  | p :: l => by
    rw [List.filterMap_cons]
    rcases hp : g p with _ | r
    · exact (filterMap_hadm_sublist g hg l).cons p.1
    · rw [List.map_cons, hg p r hp, List.map_cons]
      exact (filterMap_hadm_sublist g hg l).cons₂ p.1

theorem mergedNotes_hadm_nodup (notes : List NoteRow)
    (adms : List AdmissionRow) :
    ((mergedNotes notes adms).map (fun r => r.HADM_ID)).Nodup := by
  have h1 : ((mergedNotes notes adms).map (fun r => r.HADM_ID)).Sublist
      ((combinedTexts notes adms).map Prod.fst) := by
    refine filterMap_hadm_sublist _ ?_ _
    intro p r hg
    rcases hfind : (reportRows notes adms).find? (fun c => c.HADM_ID == p.1)
      with _ | rep <;> rw [hfind] at hg
    · cases hg
    · obtain rfl := Option.some_inj.mp ((Option.map_some' _ _) ▸ hg)
      rfl
  have h2 : (combinedTexts notes adms).map Prod.fst =
      admissionKeys notes adms := by
    simp [combinedTexts, List.map_map, Function.comp_def]
  rw [h2] at h1
  exact h1.nodup (List.nodup_dedup _)

/-! Consolidation claims. -/

/-- C2.  The consolidated output has at most one row per admission id, and a
row for an admission exists only if the raw notes contain a
`"Report"`-described discharge summary for that admission (admissions with
only addenda are dropped by the inner join). -/
theorem filter_notes_unique_admission_report_only (notes : List NoteRow)
    (adms : List AdmissionRow) (flag : Bool) :
    ((filter_notes notes adms flag).map (fun r => r.HADM_ID)).Nodup ∧
    ∀ r ∈ filter_notes notes adms flag, ∃ n ∈ notes,
      n.HADM_ID = some r.HADM_ID ∧ n.DESCRIPTION = "Report".data ∧
      n.CATEGORY = "Discharge summary".data := by
  constructor
  · exact (filter_notes_hadm_map_sublist notes adms flag).nodup
      (mergedNotes_hadm_nodup notes adms)
  · intro r hr
    obtain ⟨r0, hr0, hh⟩ := filter_notes_hadm hr
    obtain ⟨_, n, hn, hnh, hnd, hnc⟩ := mergedNotes_trace hr0
    exact ⟨n, hn, by rw [hnh, hh], hnd, hnc⟩

/-- Witness for C2 at a concrete corpus: the consolidated admission ids are
distinct, and the consolidated row of admission 1 traces back to a raw
`"Report"` row. -/
theorem filter_notes_unique_admission_report_only_witness :
    ((filter_notes wNotes wAdms false).map (fun r => r.HADM_ID)).Nodup ∧
    (∃ n ∈ wNotes, n.HADM_ID = some wConsRow1.HADM_ID ∧
      n.DESCRIPTION = "Report".data ∧
      n.CATEGORY = "Discharge summary".data) := by
  refine ⟨(filter_notes_unique_admission_report_only wNotes wAdms false).1,
    (filter_notes_unique_admission_report_only wNotes wAdms false).2
      wConsRow1 (by decide)⟩

/-- C3.  No note of a `NEWBORN` admission appears in the output of
`filter_notes` (stated for admission tables in which the admission id
determines the type, the data-model invariant of unique admission ids). -/
theorem filter_notes_excludes_newborn (notes : List NoteRow)
    (adms : List AdmissionRow) (flag : Bool) (adm : AdmissionRow)
    (hmem : adm ∈ adms) (htype : adm.ADMISSION_TYPE = some NEWBORN)
    (huniq : ∀ a ∈ adms, a.HADM_ID = adm.HADM_ID →
      a.ADMISSION_TYPE = some NEWBORN) :
    ∀ r ∈ filter_notes notes adms flag, r.HADM_ID ≠ adm.HADM_ID := by
  intro r hr heq
  obtain ⟨r0, hr0, hh⟩ := filter_notes_hadm hr
  obtain ⟨⟨a, ha, hah, hat⟩, _⟩ := mergedNotes_trace hr0
  exact hat (huniq a ha (by rw [hah, hh, heq]))

/-- Witness for C3: the consolidated row of admission 1 is not a row of the
newborn admission 2. -/
theorem filter_notes_excludes_newborn_witness :
    wConsRow1.HADM_ID ≠ wAdmNewborn.HADM_ID := by
  exact filter_notes_excludes_newborn wNotes wAdms false wAdmNewborn
    (by decide) (by decide) (by decide) wConsRow1 (by decide)

/-- C7.  Each combined admission text is the `"\n\n"`-join of the texts of
that admission's surviving rows, and those rows are in chronological
`CHARTDATE` order. -/
theorem combined_text_chronological (notes : List NoteRow)
    (adms : List AdmissionRow) :
    (∀ p ∈ combinedTexts notes adms,
      p.2 = List.intercalate SEP
        (((dedupedNotes notes adms).filter
          (fun c => c.HADM_ID == p.1)).map (fun c => c.TEXT))) ∧
    (∀ h : Nat, List.Pairwise (fun a b => a.CHARTDATE ≤ b.CHARTDATE)
      ((dedupedNotes notes adms).filter (fun c => c.HADM_ID == h))) := by
  constructor
  · intro p hp
    rcases List.mem_map.mp hp with ⟨h, hh, rfl⟩
    rfl
  · intro h
    have hs := sortByKey_sorted (fun c : CNote => c.CHARTDATE)
      (survivingNotes notes adms)
    have hd := List.Pairwise.sublist
      (dedupLastBy_sublist (fun c : CNote => c.TEXT) _) hs
    exact List.Pairwise.filter _ hd

/-- Witness for C7: two notes of admission 1 dated day 1 (text `"A"`) and
day 3 (text `"B"`) merge into the chronological text `"A\n\nB"`. -/
theorem combined_text_chronological_witness :
    "A\n\nB".data = List.intercalate SEP
      (((dedupedNotes wNotes wAdms).filter
        (fun c => c.HADM_ID == 1)).map (fun c => c.TEXT)) ∧
    List.Pairwise (fun a b => a.CHARTDATE ≤ b.CHARTDATE)
      ((dedupedNotes wNotes wAdms).filter (fun c => c.HADM_ID == 1)) := by
  refine ⟨(combined_text_chronological wNotes wAdms).1
    (1, "A\n\nB".data) (by decide),
    (combined_text_chronological wNotes wAdms).2 1⟩

/-- C8.  For every text value present in the sorted table, exactly one row
with that text survives duplicate removal, and it is a chronologically
latest one: every row with that text has a `CHARTDATE` at most the
survivor's. -/
theorem dedup_keeps_latest_duplicate (notes : List NoteRow)
    (adms : List AdmissionRow) (t : List Char)
    (hex : ∃ r ∈ sortedNotes notes adms, r.TEXT = t) :
    ∃ r', r' ∈ dedupedNotes notes adms ∧ r'.TEXT = t ∧
      (∀ r'' ∈ dedupedNotes notes adms, r''.TEXT = t → r'' = r') ∧
      (∀ r ∈ sortedNotes notes adms, r.TEXT = t →
        r.CHARTDATE ≤ r'.CHARTDATE) := by
  obtain ⟨r, hr, hrt⟩ := hex
  obtain ⟨r', hr', hrt'⟩ :=
    exists_dedupLastBy (f := fun c : CNote => c.TEXT) r hr
  have ht' : r'.TEXT = t := by rw [hrt'.symm] at hrt; exact hrt
  refine ⟨r', hr', ht', ?_, ?_⟩
  · intro r'' hr'' ht''
    exact List.inj_on_of_nodup_map
      (dedupLastBy_map_nodup (fun c : CNote => c.TEXT) _) hr'' hr'
      (by rw [ht'', ht'])
  · intro q hq hqt
    exact dedupLastBy_latest
      (sortByKey_sorted (fun c : CNote => c.CHARTDATE) _) hr' hq
      (by rw [hqt, ht'])

/-- Witness for C8: two rows share the text `"X"` with chart dates 3 and 7;
a unique survivor with text `"X"` exists and every `"X"` row is dated at
most as late as it. -/
theorem dedup_keeps_latest_duplicate_witness :
    ∃ r', r' ∈ dedupedNotes wDups [wAdm5] ∧ r'.TEXT = "X".data ∧
      (∀ r'' ∈ dedupedNotes wDups [wAdm5], r''.TEXT = "X".data → r'' = r') ∧
      (∀ r ∈ sortedNotes wDups [wAdm5], r.TEXT = "X".data →
        r.CHARTDATE ≤ r'.CHARTDATE) := by
  exact dedup_keeps_latest_duplicate wDups [wAdm5] "X".data
    ⟨⟨21, 100, 5, 3, dsCat, reportDesc, "X".data⟩, by decide, rfl⟩

/-! Section-extractor capture semantics (C5). -/

theorem ciStarts_take {lbl : List Char} :
    ∀ {t : List Char}, ciStarts lbl t = true →
      ciEq (t.take lbl.length) lbl := by
  induction lbl with
  | nil => intro t _; rfl
  | cons a l ih =>
    intro t h
    cases t with
    | nil => cases h
    | cons b t' =>
      rw [ciStarts, Bool.and_eq_true] at h
      have hab : lowerNat b = lowerNat a := by
        have := h.1
        simp only [beq_iff_eq] at this
        exact this.symm
      have htail := ih h.2
      simp only [List.length_cons, List.take_succ_cons, ciEq, List.map_cons]
      rw [hab]
      exact congrArg (lowerNat a :: ·) htail

theorem ciFind_some_decomp {lbl t r : List Char}
    (h : ciFind lbl t = some r) :
    ∃ pre mid, t = pre ++ (mid ++ r) ∧ ciEq mid lbl := by
  induction t with
  | nil =>
    rw [ciFind] at h
    by_cases hl : lbl.isEmpty
    · rw [if_pos hl] at h
      obtain rfl := Option.some_inj.mp h
      refine ⟨[], [], rfl, ?_⟩
      rw [List.isEmpty_iff.mp hl]
      rfl
    · rw [if_neg hl] at h; cases h
  | cons c rest ih =>
    rw [ciFind] at h
    by_cases hs : ciStarts lbl (c :: rest) = true
    · rw [if_pos hs] at h
      obtain rfl := Option.some_inj.mp h
      exact ⟨[], (c :: rest).take lbl.length, by
        rw [List.nil_append, List.take_append_drop], ciStarts_take hs⟩
    · rw [if_neg hs] at h
      obtain ⟨pre, mid, heq, hm⟩ := ih h
      exact ⟨c :: pre, mid, by rw [List.cons_append, heq], hm⟩

theorem ciFind_eq_none_of {lbl t : List Char}
    (h : ∀ pre mid post, t = pre ++ (mid ++ post) → ¬ ciEq mid lbl) :
    ciFind lbl t = none := by
  rcases hf : ciFind lbl t with _ | r
  · rfl
  · obtain ⟨pre, mid, heq, hm⟩ := ciFind_some_decomp hf
    exact absurd hm (h pre mid r heq)

theorem takeUntilBlank_decomp (l : List Char) :
    ∃ post, l = takeUntilBlank l ++ post ∧
      (post = [] ∨ ∃ u, post = '\n' :: '\n' :: u) := by
  induction l with
  | nil => exact ⟨[], rfl, Or.inl rfl⟩
  | cons c rest ih =>
    rw [takeUntilBlank]
    by_cases hc : (c == '\n' && rest.head? == some '\n') = true
    · rw [if_pos hc]
      rw [Bool.and_eq_true] at hc
      obtain rfl : c = '\n' := by simpa using hc.1
      refine ⟨'\n' :: rest, rfl, Or.inr ?_⟩
      cases rest with
      | nil => simp at hc
      | cons d u =>
        obtain rfl : d = '\n' := by simpa using hc.2
        exact ⟨u, rfl⟩
    · rw [if_neg hc]
      obtain ⟨post, hp, hsh⟩ := ih
      refine ⟨post, ?_, hsh⟩
      rw [List.cons_append]
      exact congrArg (c :: ·) hp

theorem head?_takeUntilBlank (l : List Char) :
    (takeUntilBlank l).head? = l.head? ∨ (takeUntilBlank l).head? = none := by
  cases l with
  | nil => exact Or.inr rfl
  | cons c rest =>
    rw [takeUntilBlank]
    by_cases hc : (c == '\n' && rest.head? == some '\n') = true
    · rw [if_pos hc]; exact Or.inr rfl
    · rw [if_neg hc]; exact Or.inl rfl

theorem takeUntilBlank_noDouble (l : List Char) :
    noDoubleNL (takeUntilBlank l) = true := by
  induction l with
  | nil => rfl
  | cons c rest ih =>
    rw [takeUntilBlank]
    by_cases hc : (c == '\n' && rest.head? == some '\n') = true
    · rw [if_pos hc]; rfl
    · rw [if_neg hc]
      rw [noDoubleNL, Bool.and_eq_true, ih]
      refine ⟨?_, rfl⟩
      rw [Bool.not_eq_true']
      by_cases hcn : c = '\n'
      · subst hcn
        rcases head?_takeUntilBlank rest with hh | hh <;> rw [hh]
        · simp only [Bool.and_eq_true, not_and] at hc
          rcases hr : rest.head? with _ | d
          · simp
          · have hd : ¬ d = '\n' := by
              intro hd
              exact absurd (by simp [hr, hd]) (hc (by simp))
            simp [hd]
        · simp
      · simp [hcn]

theorem dropWhile_shape (p : Char → Bool) (l : List Char) :
    l.dropWhile p = [] ∨
      ∃ c t', l.dropWhile p = c :: t' ∧ p c = false := by
  induction l with
  | nil => exact Or.inl rfl
  | cons c rest ih =>
    rw [List.dropWhile_cons]
    by_cases hc : p c = true
    · rw [if_pos hc]; exact ih
    · rw [if_neg hc]
      exact Or.inr ⟨c, rest, rfl, by simpa using hc⟩

/-- C5 counterexample.  On `"chief complaint:\n\nfoo"` the code's extractor
returns `"foo"`: the greedy `\s*` crosses the blank line that immediately
follows the colon.  The capture rule as claimed (content between the label
and the next blank line, trimmed) yields the empty string instead. -/
theorem section_capture_counterexample :
    extractSection ccLabel "chief complaint:\n\nfoo".data = "foo".data ∧
    claimedSectionValue ccLabel "chief complaint:\n\nfoo".data = [] ∧
    "foo".data ≠ ([] : List Char) := ⟨by decide, by decide, by decide⟩

/-- C5 as amended.  For each of the eight section labels: if the label has
no case-insensitive occurrence in the text the value is empty; otherwise the
text splits as prefix, label occurrence, whitespace run (possibly crossing
blank lines), capture, and remainder, where the capture starts with a
non-whitespace character (if non-empty), contains no blank line, stops at a
blank line or the end of the text, and the extracted value is the trimmed
capture.  In particular `"Chief Complaint: Chest pain\n\n..."` extracts
`"Chest pain"`. -/
theorem extract_sections_semantics_amended :
    (∀ lbl ∈ labels8, ∀ t : List Char,
      ((∀ pre mid post, t = pre ++ (mid ++ post) → ¬ ciEq mid lbl) →
        extractSection lbl t = []) ∧
      (∀ r, ciFind lbl t = some r →
        ∃ pre mid ws cap post,
          t = pre ++ (mid ++ (ws ++ (cap ++ post))) ∧
          ciEq mid lbl ∧
          (∀ c ∈ ws, pySpace c = true) ∧
          (cap = [] ∨ ∃ c cap', cap = c :: cap' ∧ pySpace c = false) ∧
          noDoubleNL cap = true ∧
          (post = [] ∨ ∃ u, post = '\n' :: '\n' :: u) ∧
          extractSection lbl t = stripChars cap)) ∧
    extractSection ccLabel
        "Chief Complaint: Chest pain\n\nPresent Illness: ...".data =
      "Chest pain".data := by
  constructor
  · intro lbl _ t
    constructor
    · intro h
      rw [extractSection, ciFind_eq_none_of h]
    · intro r hfind
      obtain ⟨pre, mid, ht, hmid⟩ := ciFind_some_decomp hfind
      obtain ⟨post, hcap, hpost⟩ := takeUntilBlank_decomp (r.dropWhile pySpace)
      refine ⟨pre, mid, r.takeWhile pySpace,
        takeUntilBlank (r.dropWhile pySpace), post, ?_, hmid, ?_, ?_,
        takeUntilBlank_noDouble _, hpost, ?_⟩
      · rw [ht, ← hcap, List.takeWhile_append_dropWhile]
      · intro c hcmem
        exact List.mem_takeWhile_imp hcmem
      · rcases dropWhile_shape pySpace r with hsh | ⟨c, t', hsh, hc⟩
        · rw [hsh]
          exact Or.inl rfl
        · rw [hsh, takeUntilBlank]
          have hcn : (c == '\n') = false := by
            rcases Bool.eq_false_or_eq_true (c == '\n') with hb | hb
            · obtain rfl : c = '\n' := by simpa using hb
              simp [pySpace] at hc
            · exact hb
          rw [hcn]
          simp only [Bool.false_and, Bool.false_eq_true, if_false]
          exact Or.inr ⟨c, _, rfl, hc⟩
      · rw [extractSection, hfind]
  · decide

/-- Witness for the amended C5 at the spec's own example text. -/
theorem extract_sections_semantics_amended_witness :
    ∃ pre mid ws cap post,
      "Chief Complaint: Chest pain\n\nPresent Illness: ...".data =
        pre ++ (mid ++ (ws ++ (cap ++ post))) ∧
      ciEq mid ccLabel ∧
      (∀ c ∈ ws, pySpace c = true) ∧
      (cap = [] ∨ ∃ c cap', cap = c :: cap' ∧ pySpace c = false) ∧
      noDoubleNL cap = true ∧
      (post = [] ∨ ∃ u, post = '\n' :: '\n' :: u) ∧
      extractSection ccLabel
        "Chief Complaint: Chest pain\n\nPresent Illness: ...".data =
        stripChars cap := by
  exact ((extract_sections_semantics_amended.1 ccLabel (by decide)
    "Chief Complaint: Chest pain\n\nPresent Illness: ...".data).2
    " Chest pain\n\nPresent Illness: ...".data (by decide))

/-! Round-trip of section extraction over the rebuilt text (C4). -/

theorem char_toNat_inj {c d : Char} (h : c.toNat = d.toNat) : c = d := by
  rw [← Char.ofNat_toNat c, ← Char.ofNat_toNat d, h]

theorem lowerNat_ne_nl {c : Char} (h : c ≠ '\n') : lowerNat c ≠ 10 := by
  rw [lowerNat]
  split
  · rename_i hr
    rw [Bool.and_eq_true] at hr
    have h65 : 65 ≤ c.toNat := by simpa using hr.1
    omega
  · intro h10
    exact h (char_toNat_inj h10)

theorem ciStarts_append_of {lbl m : List Char}
    (h : ciStarts lbl m = true) (z : List Char) :
    ciStarts lbl (m ++ z) = true := by
  induction lbl generalizing m with
  | nil => rfl
  | cons a l ih =>
    cases m with
    | nil => cases h
    | cons b m' =>
      rw [ciStarts, Bool.and_eq_true] at h
      rw [List.cons_append, ciStarts, Bool.and_eq_true]
      exact ⟨h.1, ih h.2⟩

theorem ciStarts_length {lbl : List Char} :
    ∀ {t : List Char}, ciStarts lbl t = true → lbl.length ≤ t.length := by
  induction lbl with
  | nil => intro t _; exact Nat.zero_le _
  | cons a l ih =>
    intro t h
    cases t with
    | nil => cases h
    | cons b t' =>
      rw [ciStarts, Bool.and_eq_true] at h
      exact Nat.succ_le_succ (ih h.2)

theorem ciFind_here {lbl t : List Char} (h : ciStarts lbl t = true) :
    ciFind lbl t = some (t.drop lbl.length) := by
  cases t with
  | nil =>
    cases lbl with
    | nil => rfl
    | cons a l => cases h
  | cons c rest => rw [ciFind, if_pos h]

theorem ciStarts_append_cases {lbl : List Char} :
    ∀ {s w : List Char}, ciStarts lbl (s ++ w) = true →
      ciStarts lbl s = true ∨ ciStarts s lbl = true := by
  intro s
  induction s generalizing lbl with
  | nil =>
    intro w _
    cases lbl with
    | nil => exact Or.inl rfl
    | cons a l => exact Or.inr rfl
  | cons c s' ih =>
    intro w h
    cases lbl with
    | nil => exact Or.inl rfl
    | cons a l =>
      rw [List.cons_append, ciStarts, Bool.and_eq_true] at h
      rcases ih h.2 with h' | h'
      · exact Or.inl (by rw [ciStarts, Bool.and_eq_true]; exact ⟨h.1, h'⟩)
      · refine Or.inr ?_
        rw [ciStarts, Bool.and_eq_true]
        refine ⟨?_, h'⟩
        have := h.1
        simp only [beq_iff_eq] at this ⊢
        exact this.symm

theorem ciFind_cons_none {lbl : List Char} {c : Char} {rest : List Char}
    (h : ciFind lbl (c :: rest) = none) :
    ciStarts lbl (c :: rest) = false ∧ ciFind lbl rest = none := by
  rw [ciFind] at h
  by_cases hs : ciStarts lbl (c :: rest) = true
  · rw [if_pos hs] at h; cases h
  · rw [if_neg hs] at h
    exact ⟨Bool.not_eq_true _ ▸ hs, h⟩

theorem noStraddle_tail {lbl : List Char} {c : Char} {h : List Char}
    (hn : noStraddle lbl (c :: h) = true) : noStraddle lbl h = true := by
  rw [noStraddle, List.tails_cons, List.all_cons, Bool.and_eq_true] at hn
  exact hn.2

theorem noStraddle_self {lbl : List Char} {c : Char} {h : List Char}
    (hn : noStraddle lbl (c :: h) = true) :
    ciStarts (c :: h) lbl = false := by
  rw [noStraddle] at hn
  have := List.all_eq_true.mp hn (c :: h)
    ((List.mem_tails _ _).mpr (List.suffix_refl _))
  simpa using this

theorem ciFind_append_right {lbl h : List Char}
    (h1 : ciFind lbl h = none) (h2 : noStraddle lbl h = true)
    (w : List Char) : ciFind lbl (h ++ w) = ciFind lbl w := by
  induction h with
  | nil => rfl
  | cons c h' ih =>
    obtain ⟨hs, hrest⟩ := ciFind_cons_none h1
    rw [List.cons_append, ciFind]
    have hns : ciStarts lbl ((c :: h') ++ w) = false := by
      rcases Bool.eq_false_or_eq_true (ciStarts lbl ((c :: h') ++ w))
        with hb | hb
      · rcases ciStarts_append_cases hb with h' | h'
        · rw [h'] at hs; cases hs
        · rw [noStraddle_self h2] at h'; cases h'
      · exact hb
    rw [List.cons_append] at hns
    rw [if_neg (by rw [hns]; exact Bool.false_ne_true)]
    exact ih hrest (noStraddle_tail h2)

theorem noNlChar_head {a : Char} {l : List Char}
    (h : noNlChar (a :: l) = true) : a ≠ '\n' ∧ noNlChar l = true := by
  rw [noNlChar, List.all_cons, Bool.and_eq_true] at h
  exact ⟨by simpa using h.1, h.2⟩

theorem ciStarts_cons_nl {lbl : List Char} (hn : noNlChar lbl = true)
    (hne : lbl ≠ []) (w : List Char) :
    ciStarts lbl ('\n' :: w) = false := by
  cases lbl with
  | nil => exact absurd rfl hne
  | cons a l =>
    rw [ciStarts]
    have ha : lowerNat a ≠ lowerNat '\n' := by
      have : lowerNat '\n' = 10 := by decide
      rw [this]
      exact lowerNat_ne_nl (noNlChar_head hn).1
    simp [ha]

theorem ciStarts_nl_extend {lbl : List Char} :
    ∀ {s : List Char}, noNlChar lbl = true → ciStarts lbl s = false →
      ∀ w, ciStarts lbl (s ++ '\n' :: w) = false := by
  intro s
  induction s generalizing lbl with
  | nil =>
    intro hn h w
    cases lbl with
    | nil => cases h
    | cons a l => exact ciStarts_cons_nl hn (by simp) w
  | cons c s' ih =>
    intro hn h w
    cases lbl with
    | nil => cases h
    | cons a l =>
      rw [ciStarts] at h
      rw [List.cons_append, ciStarts]
      rcases Bool.eq_false_or_eq_true (lowerNat a == lowerNat c) with hb | hb
      · rw [hb, Bool.true_and] at h ⊢
        exact ih (noNlChar_head hn).2 h w
      · rw [hb, Bool.false_and]

theorem ciFind_nil {lbl : List Char} (h : lbl ≠ []) :
    ciFind lbl [] = none := by
  rw [ciFind, if_neg]
  simpa using h

theorem ciFind_cons_nl {lbl : List Char} (hn : noNlChar lbl = true)
    (hne : lbl ≠ []) (w : List Char) :
    ciFind lbl ('\n' :: w) = ciFind lbl w := by
  rw [ciFind, if_neg]
  rw [ciStarts_cons_nl hn hne w]
  exact Bool.false_ne_true

theorem ciFind_skip_value {lbl : List Char} (hn : noNlChar lbl = true)
    (hne : lbl ≠ []) :
    ∀ {v : List Char}, ciFind lbl v = none → ∀ w,
      ciFind lbl (v ++ '\n' :: '\n' :: w) = ciFind lbl w := by
  intro v
  induction v with
  | nil =>
    intro _ w
    rw [List.nil_append, ciFind_cons_nl hn hne, ciFind_cons_nl hn hne]
  | cons c v' ih =>
    intro h w
    obtain ⟨hs, hrest⟩ := ciFind_cons_none h
    rw [List.cons_append, ciFind, if_neg]
    · exact ih hrest w
    · intro hx
      have hx' : ciStarts lbl ((c :: v') ++ '\n' :: ('\n' :: w)) = true := hx
      rw [ciStarts_nl_extend hn hs ('\n' :: w)] at hx'
      cases hx'

theorem ciFind_skip_block {lbl h v : List Char} (hn : noNlChar lbl = true)
    (hne : lbl ≠ []) (hh : ciFind lbl h = none)
    (hstr : noStraddle lbl h = true) (hv : ciFind lbl v = none)
    (w : List Char) :
    ciFind lbl (h ++ (v ++ '\n' :: '\n' :: w)) = ciFind lbl w := by
  rw [ciFind_append_right hh hstr, ciFind_skip_value hn hne hv w]

theorem ciFind_block_here {lbl h : List Char} (hs : ciStarts lbl h = true)
    (hd : h.drop lbl.length = [' ']) (X : List Char) :
    ciFind lbl (h ++ X) = some (' ' :: X) := by
  rw [ciFind_here (ciStarts_append_of hs X),
    List.drop_append_of_le_length (ciStarts_length hs), hd]
  rfl

theorem extractSection_congr {lbl t1 t2 : List Char}
    (h : ciFind lbl t1 = ciFind lbl t2) :
    extractSection lbl t1 = extractSection lbl t2 := by
  rw [extractSection, extractSection, h]

theorem extractSection_of_none {lbl t : List Char}
    (h : ciFind lbl t = none) : extractSection lbl t = [] := by
  rw [extractSection, h]

theorem length_dropWhile_le' (p : Char → Bool) (l : List Char) :
    (l.dropWhile p).length ≤ l.length := by
  conv_rhs => rw [← List.takeWhile_append_dropWhile p l]
  rw [List.length_append]
  omega

theorem dropWhile_eq_self_of_length {p : Char → Bool} {l : List Char}
    (h : (l.dropWhile p).length = l.length) : l.dropWhile p = l := by
  have h0 := List.takeWhile_append_dropWhile p l
  have h1 : (l.takeWhile p).length + (l.dropWhile p).length = l.length := by
    rw [← List.length_append, h0]
  have h2 : l.takeWhile p = [] := by
    rw [← List.length_eq_zero]
    omega
  rw [h2, List.nil_append] at h0
  exact h0

theorem strip_eq_self {v : List Char} (h : stripChars v = v) :
    v.dropWhile pySpace = v ∧
      v.reverse.dropWhile pySpace = v.reverse := by
  have hlen : (stripChars v).length = v.length := by rw [h]
  rw [stripChars, List.length_reverse] at hlen
  have hle1 := length_dropWhile_le' pySpace ((v.dropWhile pySpace).reverse)
  rw [List.length_reverse] at hle1
  have hle2 := length_dropWhile_le' pySpace v
  have hd1 : v.dropWhile pySpace = v :=
    dropWhile_eq_self_of_length (by omega)
  refine ⟨hd1, ?_⟩
  rw [hd1] at hlen
  exact dropWhile_eq_self_of_length (by rw [List.length_reverse]; omega)

theorem dropWhile_self_shape {p : Char → Bool} {v : List Char}
    (h : v.dropWhile p = v) :
    v = [] ∨ ∃ c v', v = c :: v' ∧ p c = false := by
  cases v with
  | nil => exact Or.inl rfl
  | cons c v' =>
    refine Or.inr ⟨c, v', rfl, ?_⟩
    rcases Bool.eq_false_or_eq_true (p c) with hb | hb
    · rw [List.dropWhile_cons, if_pos hb] at h
      have := length_dropWhile_le' p v'
      have h2 : (v'.dropWhile p).length = v'.length + 1 := by
        rw [h]; rfl
      omega
    · exact hb

theorem dropWhile_append_self {p : Char → Bool} {v : List Char}
    (h : v.dropWhile p = v) (hne : v ≠ []) (w : List Char) :
    (v ++ w).dropWhile p = v ++ w := by
  rcases dropWhile_self_shape h with rfl | ⟨c, v', rfl, hc⟩
  · exact absurd rfl hne
  · rw [List.cons_append, List.dropWhile_cons, if_neg (by rw [hc]; exact
      Bool.false_ne_true)]

theorem takeUntilBlank_all {v : List Char} (h : noDoubleNL v = true) :
    takeUntilBlank v = v := by
  induction v with
  | nil => rfl
  | cons c v' ih =>
    rw [noDoubleNL, Bool.and_eq_true] at h
    have hcond : (c == '\n' && v'.head? == some '\n') = false :=
      (Bool.not_eq_true' _) ▸ h.1
    rw [takeUntilBlank, if_neg (by rw [hcond]; exact Bool.false_ne_true),
      ih h.2]

theorem takeUntilBlank_append_sep {v : List Char} :
    noDoubleNL v = true → v.getLast? ≠ some '\n' → ∀ w,
      takeUntilBlank (v ++ '\n' :: '\n' :: w) = v := by
  induction v with
  | nil =>
    intro _ _ w
    rw [List.nil_append, takeUntilBlank, if_pos (by simp)]
  | cons c v' ih =>
    intro hnd hlast w
    rw [noDoubleNL, Bool.and_eq_true] at hnd
    have hcond : (c == '\n' && v'.head? == some '\n') = false :=
      (Bool.not_eq_true' _) ▸ hnd.1
    rw [List.cons_append, takeUntilBlank]
    cases v' with
    | nil =>
      have hc : c ≠ '\n' := fun hc => hlast (by rw [hc]; rfl)
      rw [if_neg (by simp [hc]), List.nil_append, takeUntilBlank,
        if_pos (by simp)]
    | cons d v'' =>
      simp only [List.head?_cons] at hcond
      rw [if_neg (by
        simp only [List.cons_append, List.head?_cons]
        rw [hcond]
        exact Bool.false_ne_true)]
      have hres := ih hnd.2
        (by rw [List.getLast?_cons_cons] at hlast; exact hlast) w
      exact congrArg (c :: ·) hres

theorem extract_block (lbl h v : List Char) (hs : ciStarts lbl h = true)
    (hd : h.drop lbl.length = [' '])
    (hstrip : stripChars v = v) (hnd : noDoubleNL v = true) (hne : v ≠ [])
    (w : List Char) :
    extractSection lbl (h ++ (v ++ '\n' :: '\n' :: w)) = v := by
  obtain ⟨hld, hrd⟩ := strip_eq_self hstrip
  have hlast : v.getLast? ≠ some '\n' := by
    rcases dropWhile_self_shape hrd with hrev | ⟨c, r, hrev, hc⟩
    · exact absurd (List.reverse_eq_nil_iff.mp hrev) hne
    · intro hl
      rw [← List.head?_reverse, hrev, List.head?_cons] at hl
      obtain rfl : c = '\n' := Option.some_inj.mp hl
      simp [pySpace] at hc
  rw [extractSection, ciFind_block_here hs hd (v ++ '\n' :: '\n' :: w)]
  show stripChars (takeUntilBlank
    (List.dropWhile pySpace (' ' :: (v ++ '\n' :: '\n' :: w)))) = v
  rw [List.dropWhile_cons, if_pos (by decide : pySpace ' ' = true)]
  rw [dropWhile_append_self hld hne]
  rw [takeUntilBlank_append_sep hnd hlast w]
  exact hstrip

theorem extract_block_last (lbl h v : List Char)
    (hs : ciStarts lbl h = true) (hd : h.drop lbl.length = [' '])
    (hstrip : stripChars v = v) (hnd : noDoubleNL v = true) :
    extractSection lbl (h ++ v) = v := by
  obtain ⟨hld, _⟩ := strip_eq_self hstrip
  rw [extractSection, ciFind_block_here hs hd v]
  show stripChars (takeUntilBlank (List.dropWhile pySpace (' ' :: v))) = v
  rw [List.dropWhile_cons, if_pos (by decide : pySpace ' ' = true)]
  rw [hld, takeUntilBlank_all hnd]
  exact hstrip

theorem extractSection_skip (lbl h v : List Char) (hn : noNlChar lbl = true)
    (hne : lbl ≠ []) (hh : ciFind lbl h = none)
    (hstr : noStraddle lbl h = true) (hv : ciFind lbl v = none)
    (w : List Char) :
    extractSection lbl (h ++ (v ++ '\n' :: '\n' :: w)) =
      extractSection lbl w :=
  extractSection_congr (ciFind_skip_block hn hne hh hstr hv w)

theorem extractSection_skip_empty (lbl h : List Char)
    (hn : noNlChar lbl = true) (hne : lbl ≠ [])
    (hh : ciFind lbl h = none) (hstr : noStraddle lbl h = true)
    (w : List Char) :
    extractSection lbl (h ++ '\n' :: '\n' :: w) = extractSection lbl w :=
  extractSection_congr (by
    rw [ciFind_append_right hh hstr, ciFind_cons_nl hn hne,
      ciFind_cons_nl hn hne])

theorem extractSection_skip_last (lbl h v : List Char)
    (hh : ciFind lbl h = none) (hstr : noStraddle lbl h = true)
    (hv : ciFind lbl v = none) :
    extractSection lbl (h ++ v) = [] :=
  (extractSection_congr (ciFind_append_right hh hstr v)).trans
    (extractSection_of_none hv)

theorem extract_rebuild (cc pi mh al pe fh sh : List Char)
    (hcc : goodVal cc) (hpi : goodVal pi) (hmh : goodVal mh)
    (hal : goodVal al) (hpe : goodVal pe) (hfh : goodVal fh)
    (hsh : goodVal sh) :
    extract_sections (rebuildText ⟨cc, pi, mh, [], al, pe, fh, sh⟩) =
      ⟨cc, pi, mh, [], al, pe, fh, sh⟩ := by
  have T : rebuildText ⟨cc, pi, mh, [], al, pe, fh, sh⟩ =
      hCC ++ (cc ++ ('\n' :: '\n' ::
      (hPI ++ (pi ++ ('\n' :: '\n' ::
      (hMH ++ (mh ++ ('\n' :: '\n' ::
      (hMA ++ ('\n' :: '\n' ::
      (hAL ++ (al ++ ('\n' :: '\n' ::
      (hPE ++ (pe ++ ('\n' :: '\n' ::
      (hFH ++ (fh ++ ('\n' :: '\n' ::
      (hSH ++ sh)))))))))))))))))))) := by
    rw [rebuildText]
    simp only [SEP, List.cons_append, List.nil_append]
  rw [extract_sections, T]
  rw [Sections.mk.injEq]
  refine ⟨?_, ?_, ?_, ?_, ?_, ?_, ?_, ?_⟩
  · exact extract_block ccLabel hCC cc (by decide) (by decide)
      hcc.2.1 hcc.2.2.1 hcc.1 _
  · rw [extractSection_skip piLabel hCC cc (by decide) (by decide)
      (by decide) (by decide) (hcc.2.2.2 piLabel (by decide))]
    exact extract_block piLabel hPI pi (by decide) (by decide)
      hpi.2.1 hpi.2.2.1 hpi.1 _
  · rw [extractSection_skip mhLabel hCC cc (by decide) (by decide)
      (by decide) (by decide) (hcc.2.2.2 mhLabel (by decide))]
    rw [extractSection_skip mhLabel hPI pi (by decide) (by decide)
      (by decide) (by decide) (hpi.2.2.2 mhLabel (by decide))]
    exact extract_block mhLabel hMH mh (by decide) (by decide)
      hmh.2.1 hmh.2.2.1 hmh.1 _
  · rw [extractSection_skip maLabel hCC cc (by decide) (by decide)
      (by decide) (by decide) (hcc.2.2.2 maLabel (by decide))]
    rw [extractSection_skip maLabel hPI pi (by decide) (by decide)
      (by decide) (by decide) (hpi.2.2.2 maLabel (by decide))]
    rw [extractSection_skip maLabel hMH mh (by decide) (by decide)
      (by decide) (by decide) (hmh.2.2.2 maLabel (by decide))]
    rw [extractSection_skip_empty maLabel hMA (by decide) (by decide)
      (by decide) (by decide)]
    rw [extractSection_skip maLabel hAL al (by decide) (by decide)
      (by decide) (by decide) (hal.2.2.2 maLabel (by decide))]
    rw [extractSection_skip maLabel hPE pe (by decide) (by decide)
      (by decide) (by decide) (hpe.2.2.2 maLabel (by decide))]
    rw [extractSection_skip maLabel hFH fh (by decide) (by decide)
      (by decide) (by decide) (hfh.2.2.2 maLabel (by decide))]
    exact extractSection_skip_last maLabel hSH sh (by decide) (by decide)
      (hsh.2.2.2 maLabel (by decide))
  · rw [extractSection_skip alLabel hCC cc (by decide) (by decide)
      (by decide) (by decide) (hcc.2.2.2 alLabel (by decide))]
    rw [extractSection_skip alLabel hPI pi (by decide) (by decide)
      (by decide) (by decide) (hpi.2.2.2 alLabel (by decide))]
    rw [extractSection_skip alLabel hMH mh (by decide) (by decide)
      (by decide) (by decide) (hmh.2.2.2 alLabel (by decide))]
    rw [extractSection_skip_empty alLabel hMA (by decide) (by decide)
      (by decide) (by decide)]
    exact extract_block alLabel hAL al (by decide) (by decide)
      hal.2.1 hal.2.2.1 hal.1 _
  · rw [extractSection_skip peLabel hCC cc (by decide) (by decide)
      (by decide) (by decide) (hcc.2.2.2 peLabel (by decide))]
    rw [extractSection_skip peLabel hPI pi (by decide) (by decide)
      (by decide) (by decide) (hpi.2.2.2 peLabel (by decide))]
    rw [extractSection_skip peLabel hMH mh (by decide) (by decide)
      (by decide) (by decide) (hmh.2.2.2 peLabel (by decide))]
    rw [extractSection_skip_empty peLabel hMA (by decide) (by decide)
      (by decide) (by decide)]
    rw [extractSection_skip peLabel hAL al (by decide) (by decide)
      (by decide) (by decide) (hal.2.2.2 peLabel (by decide))]
    exact extract_block peLabel hPE pe (by decide) (by decide)
      hpe.2.1 hpe.2.2.1 hpe.1 _
  · rw [extractSection_skip fhLabel hCC cc (by decide) (by decide)
      (by decide) (by decide) (hcc.2.2.2 fhLabel (by decide))]
    rw [extractSection_skip fhLabel hPI pi (by decide) (by decide)
      (by decide) (by decide) (hpi.2.2.2 fhLabel (by decide))]
    rw [extractSection_skip fhLabel hMH mh (by decide) (by decide)
      (by decide) (by decide) (hmh.2.2.2 fhLabel (by decide))]
    rw [extractSection_skip_empty fhLabel hMA (by decide) (by decide)
      (by decide) (by decide)]
    rw [extractSection_skip fhLabel hAL al (by decide) (by decide)
      (by decide) (by decide) (hal.2.2.2 fhLabel (by decide))]
    rw [extractSection_skip fhLabel hPE pe (by decide) (by decide)
      (by decide) (by decide) (hpe.2.2.2 fhLabel (by decide))]
    exact extract_block fhLabel hFH fh (by decide) (by decide)
      hfh.2.1 hfh.2.2.1 hfh.1 _
  · rw [extractSection_skip shLabel hCC cc (by decide) (by decide)
      (by decide) (by decide) (hcc.2.2.2 shLabel (by decide))]
    rw [extractSection_skip shLabel hPI pi (by decide) (by decide)
      (by decide) (by decide) (hpi.2.2.2 shLabel (by decide))]
    rw [extractSection_skip shLabel hMH mh (by decide) (by decide)
      (by decide) (by decide) (hmh.2.2.2 shLabel (by decide))]
    rw [extractSection_skip_empty shLabel hMA (by decide) (by decide)
      (by decide) (by decide)]
    rw [extractSection_skip shLabel hAL al (by decide) (by decide)
      (by decide) (by decide) (hal.2.2.2 shLabel (by decide))]
    rw [extractSection_skip shLabel hPE pe (by decide) (by decide)
      (by decide) (by decide) (hpe.2.2.2 shLabel (by decide))]
    rw [extractSection_skip shLabel hFH fh (by decide) (by decide)
      (by decide) (by decide) (hfh.2.2.2 shLabel (by decide))]
    exact extract_block_last shLabel hSH sh (by decide) (by decide)
      hsh.2.1 hsh.2.2.1

/-- C4 counterexample.  A section set whose eight values are all non-empty,
trimmed, free of blank lines and of any embedded section label — i.e. with
no ambiguous nested labels — still fails the extract/rebuild round trip: the
rebuilt header `"MEDICATION ON ADMISSION: "` (singular) never matches the
extraction label `"medications on admission:"` (plural), so the medication
section is lost on re-extraction. -/
theorem roundtrip_counterexample :
    (goodVal sCounter.CHIEF_COMPLAINT ∧ goodVal sCounter.PRESENT_ILLNESS ∧
      goodVal sCounter.MEDICAL_HISTORY ∧ goodVal sCounter.MEDICATION_ADM ∧
      goodVal sCounter.ALLERGIES ∧ goodVal sCounter.PHYSICAL_EXAM ∧
      goodVal sCounter.FAMILY_HISTORY ∧ goodVal sCounter.SOCIAL_HISTORY) ∧
    rebuildText (extract_sections (rebuildText sCounter)) ≠
      rebuildText sCounter := by
  exact ⟨by decide, by decide⟩

/-- C4 as amended.  For sections whose values are non-empty, trimmed, free
of blank lines and of embedded section labels, and whose `MEDICATION_ADM`
value is empty, re-extracting from the rebuilt text and rebuilding again
reproduces the rebuilt text: extract-then-rebuild is a fixed point. -/
theorem roundtrip_fixed_point_amended (s : Sections)
    (hcc : goodVal s.CHIEF_COMPLAINT) (hpi : goodVal s.PRESENT_ILLNESS)
    (hmh : goodVal s.MEDICAL_HISTORY) (hma : s.MEDICATION_ADM = [])
    (hal : goodVal s.ALLERGIES) (hpe : goodVal s.PHYSICAL_EXAM)
    (hfh : goodVal s.FAMILY_HISTORY) (hsh : goodVal s.SOCIAL_HISTORY) :
    rebuildText (extract_sections (rebuildText s)) = rebuildText s := by
  obtain ⟨cc, pi, mh, ma, al, pe, fh, sh⟩ := s
  obtain rfl : ma = [] := hma
  rw [extract_rebuild cc pi mh al pe fh sh hcc hpi hmh hal hpe hfh hsh]

/-- Witness for the amended C4 at a concrete well-behaved section set. -/
theorem roundtrip_fixed_point_amended_witness :
    rebuildText (extract_sections (rebuildText sGood)) = rebuildText sGood :=
  roundtrip_fixed_point_amended sGood (by decide) (by decide) (by decide)
    rfl (by decide) (by decide) (by decide) (by decide)
